import Mathlib

/-!
Shallow embedding of `scripts/genlist.py`, a build-time code generator that
scans source files for lines of the form `MPIX_REGISTER_<CATEGORY>(<id>, ...)`,
groups the extracted identifiers by category, and emits one C macro list per
category terminated by a NULL sentinel.

Modelling conventions:
* A line of text is a `List Char` (without a trailing newline; no behaviour
  relevant to the claims depends on its presence).
* Python regular expressions are embedded as deterministic recursive
  functions.  The two patterns used by the script, `MPIX_REGISTER_(\w+)` and
  `\(\s*(\w+)\s*[,\)]`, are built from disjoint character classes, so the
  greedy match is the unique match and the recursive functions below compute
  exactly the Python semantics.  `\w` is modelled as ASCII alphanumeric or
  underscore and `\s` as the six ASCII whitespace characters, matching the
  behaviour on the ASCII source text the tool is run on.
* The Python dict (insertion ordered, unique keys) is an association list;
  `sorted` on the distinct keys is insertion sort by code-point order, which
  agrees with any comparison sort on duplicate-free input.
* `raise Exception` is an `Except`-style error; the propagated error carries
  the message together with the symbol table as mutated at the raise point,
  mirroring the in-place dict mutation of the Python code.
* Each `print(x)` call contributes one line to the output list; `main` runs
  the whole scan phase before `generate_list` performs any print.
-/

abbrev Cat := List Char
abbrev SymName := List Char
abbrev Symbols := List (Cat × List SymName)

/-- Model of the Python `\w` character class (ASCII fragment). -/
def isWordChar (c : Char) : Bool := c.isAlphanum || c = '_'

/-- Model of the Python `\s` character class (ASCII fragment). -/
def isSpaceChar (c : Char) : Bool :=
  c = ' ' || c = '\t' || c = '\n' || c = '\r' || c = '\x0b' || c = '\x0c'

/-- Greedy `\w*`: split off the maximal leading run of word characters. -/
def takeWord : List Char → List Char × List Char
  | [] => ([], [])
  | c :: t =>
    if isWordChar c then
      ((takeWord t).1.cons c, (takeWord t).2)
    else ([], c :: t)

/-- Greedy `\s*`: drop the maximal leading run of whitespace characters. -/
def dropSpaces : List Char → List Char
  | [] => []
  | c :: t => if isSpaceChar c then dropSpaces t else c :: t

/-- Drop a literal pattern from the front of a line, if present. -/
def dropPre (l pat : List Char) : Option (List Char) :=
  match pat, l with
  | [], _ => some l
  | _ :: _, [] => none
  | p :: ps, a :: as => if a = p then dropPre as ps else none

/-- The registration marker literal of the scanner regex. -/
def marker : Cat := "MPIX_REGISTER_".toList

/-- Embedding of `re.match` for the scanner pattern `MPIX_REGISTER_(\w+)`:
returns the captured category tag and the remainder of the line after the
match, or `none` when the line does not start with the anchored pattern. -/
def scanLine (l : List Char) : Option (Cat × List Char) :=
  match dropPre l marker with
  | none => none
  | some rest =>
    match takeWord rest with
    | ([], _) => none
    | (c :: w, r) => some (c :: w, r)

/-- Embedding of `re.match` for the aggregator pattern `\(\s*(\w+)\s*[,\)]`:
returns the captured identifier, or `none` when the remainder is malformed. -/
def extractId (l : List Char) : Option SymName :=
  match l with
  | [] => none
  | c0 :: rest =>
    if c0 = '(' then
      match takeWord (dropSpaces rest) with
      | ([], _) => none
      | (c :: w, r) =>
        match dropSpaces r with
        | [] => none
        | c2 :: _ => if (c2 = ',') ∨ (c2 = ')') then some (c :: w) else none
    else none

/-- Key membership test, `category not in symbols` in the Python code. -/
def hasKey : Symbols → Cat → Bool
  | [], _ => false
  | (k, _) :: t, c => k = c || hasKey t c

/-- Association-list lookup, the read side of `symbols[category]`. -/
def lookup : Symbols → Cat → Option (List SymName)
  | [], _ => none
  | (k, v) :: t, c => if k = c then some v else lookup t c

/-- The list stored under a key, empty when the key is absent. -/
def getSyms (s : Symbols) (c : Cat) : List SymName := (lookup s c).getD []

/-- Append one symbol to the list stored under an existing key,
`symbols[category].append(...)` in the Python code. -/
def appendSym : Symbols → Cat → SymName → Symbols
  | [], _, _ => []
  | (k, v) :: t, c, x =>
    if k = c then (k, v ++ [x]) :: t else (k, v) :: appendSym t c x

/-- Lines 18-19 of the script: create the category entry (with an empty list)
when it is not present yet.  Note that this happens before the identifier is
extracted. -/
def ensure (s : Symbols) (c : Cat) : Symbols :=
  if hasKey s c then s else s ++ [(c, [])]

/-- The fixed part of the exception message raised on a malformed remainder. -/
def errText : List Char :=
  "-- Warning: expected \"(<id>)\" or \"(<id>, ...\", not ".toList

/-- Result of one `add_match` call: the symbol table as left behind by the
call (the dict is mutated in place, also when the call raises), and the
message of the raised exception when the remainder was malformed. -/
structure AddResult where
  symbols : Symbols
  err : Option (List Char)
deriving DecidableEq

/-- Embedding of `add_match`: ensure the category entry exists, then match
the argument pattern against the remainder and append the captured
identifier, raising on a failed match. -/
def add_match (symbols : Symbols) (category : Cat) (line : List Char) : AddResult :=
  match extractId line with
  | none => ⟨ensure symbols category, some (errText ++ line)⟩
  | some w => ⟨appendSym (ensure symbols category) category w, none⟩

/-- Embedding of the loop body of `scan_file` over a list of lines: scan each
line, feed detected lines to `add_match`, and propagate the first exception
together with the table state at the raise point. -/
def scanLines (symbols : Symbols) : List (List Char) → Except (List Char × Symbols) Symbols
  | [] => .ok symbols
  | l :: ls =>
    match scanLine l with
    | none => scanLines symbols ls
    | some (cat, rest) =>
      match add_match symbols cat rest with
      | ⟨s2, some e⟩ => .error (e, s2)
      | ⟨s2, none⟩ => scanLines s2 ls

/-- Embedding of the file loop in `main`: a file is its list of lines, files
are processed in command-line order. -/
def scanFiles (symbols : Symbols) : List (List (List Char)) → Except (List Char × Symbols) Symbols
  | [] => .ok symbols
  | f :: fs =>
    match scanLines symbols f with
    | .error e => .error e
    | .ok s => scanFiles s fs

/-- Code-point comparison of two strings, the order used by Python `sorted`
on the category keys. -/
def lexLe : List Char → List Char → Bool
  | [], _ => true
  | _ :: _, [] => false
  | a :: as, b :: bs => if a = b then lexLe as bs else decide (a.toNat < b.toNat)

/-- Strict code-point order on strings. -/
def lexLt (a b : List Char) : Bool := lexLe a b && !(decide (a = b))

/-- Insert into a list sorted by `lexLe`. -/
def orderedIns (a : Cat) : List Cat → List Cat
  | [] => [a]
  | b :: t => if lexLe a b then a :: b :: t else b :: orderedIns a t

/-- Embedding of `sorted(symbols.keys())`: on the duplicate-free key list any
comparison sort agrees with Python sorted; insertion sort is used here. -/
def sortKeys : List Cat → List Cat
  | [] => []
  | a :: t => orderedIns a (sortKeys t)

/-- The keys of the symbol table in insertion order. -/
def keysOf (s : Symbols) : List Cat := s.map (fun p => p.1)

/-- Python `str.lower` on a category tag (ASCII). -/
def lowerChars (l : List Char) : List Char := l.map Char.toLower

/-- The header comment line printed first by `generate_list`. -/
def headerLine (argv0 : List Char) : List Char :=
  "/* Generated with ".toList ++ argv0 ++ " */".toList

/-- The macro definition line opening a category block. -/
def defineLine (cat : Cat) : List Char :=
  "#define MPIX_LIST_".toList ++ cat ++ " \\".toList

/-- One continuation line referencing a registered symbol. -/
def symbolLine (cat : Cat) (sym : SymName) : List Char :=
  "\t&mpix_".toList ++ lowerChars cat ++ "_".toList ++ sym ++ ", \\".toList

/-- The sentinel terminator line closing every category block. -/
def sentinelLine : List Char := "\tNULL".toList

/-- The lines printed for one category: a blank separator, the macro
definition line, one line per stored symbol, and the sentinel. -/
def categoryBlock (cat : Cat) (syms : List SymName) : List (List Char) :=
  [] :: defineLine cat :: (syms.map (symbolLine cat) ++ [sentinelLine])

/-- Embedding of `generate_list`: the header comment, then one block per
category in sorted key order. -/
def generate_list (argv0 : List Char) (s : Symbols) : List (List Char) :=
  headerLine argv0 :: (sortKeys (keysOf s)).flatMap (fun c => categoryBlock c (getSyms s c))

/-- Embedding of `main`: scan every file, then emit.  The first component is
the list of lines written to standard output, the second the propagated
exception (message and table state) when the run aborts.  All printing
happens inside `generate_list`, which runs only after every file has been
scanned, so an aborting run has an empty output trace. -/
def mainRun (argv0 : List Char) (files : List (List (List Char))) :
    List (List Char) × Option (List Char × Symbols) :=
  match scanFiles [] files with
  | .error e => ([], some e)
  | .ok s => (generate_list argv0 s, none)

/-- The identifiers a single line contributes to category `c`. -/
def lineDetect (c : Cat) (l : List Char) : List SymName :=
  match scanLine l with
  | some (cat, rest) => if cat = c then (extractId rest).toList else []
  | none => []

/-- The reference sequence for category `c`: identifiers extracted from the
concatenation of the input files in command-line order, duplicates kept. -/
def detections (files : List (List (List Char))) (c : Cat) : List SymName :=
  (files.flatMap id).flatMap (lineDetect c)

/-- Whether a pattern occurs at the front of a line. -/
def startsWith : List Char → List Char → Bool
  | _, [] => true
  | [], _ :: _ => false
  | a :: l, p :: ps => a = p && startsWith l ps

/-- Whether a pattern occurs anywhere inside a line; used to state what a
diagnostic message does or does not report. -/
def containsSub : List Char → List Char → Bool
  | [], pat => startsWith [] pat
  | c :: t, pat => startsWith (c :: t) pat || containsSub t pat

example : scanLine ("MPIX_REGISTER_OP(add)".toList) =
    some ("OP".toList, "(add)".toList) := by decide

example : extractId ("(add)".toList) = some ("add".toList) := by decide

example : extractId ("( add , x)".toList) = some ("add".toList) := by decide

example : extractId (" (add)".toList) = none := by decide

example : scanLine (" MPIX_REGISTER_OP(add)".toList) = none := by decide

example :
    mainRun ("genlist.py".toList)
      [[("MPIX_REGISTER_OP(add)".toList)], [("int x;".toList)]] =
    ([headerLine ("genlist.py".toList),
      [],
      defineLine ("OP".toList),
      symbolLine ("OP".toList) ("add".toList),
      sentinelLine], none) := by rfl

/-! ### Association-list lemmas -/

theorem hasKey_eq_isSome (s : Symbols) (c : Cat) : hasKey s c = (lookup s c).isSome := by
  induction s with
  | nil => rfl
  | cons p t ih =>
    obtain ⟨k, v⟩ := p
    by_cases h : k = c <;> simp [hasKey, lookup, h, ih]

theorem lookup_eq_none_of_hasKey_false {s : Symbols} {c : Cat}
    (h : hasKey s c = false) : lookup s c = none := by
  rw [hasKey_eq_isSome] at h
  exact Option.not_isSome_iff_eq_none.mp (by simp [h])

theorem lookup_append (s t : Symbols) (c : Cat) :
    lookup (s ++ t) c = (lookup s c).or (lookup t c) := by
  induction s with
  | nil => simp [lookup]
  | cons p s ih =>
    obtain ⟨k, v⟩ := p
    by_cases h : k = c <;> simp [lookup, h, ih]

theorem lookup_appendSym_self (s : Symbols) (c : Cat) (x : SymName)
    (h : hasKey s c = true) :
    lookup (appendSym s c x) c = some (getSyms s c ++ [x]) := by
  induction s with
  | nil => simp [hasKey] at h
  | cons p t ih =>
    obtain ⟨k, v⟩ := p
    by_cases hk : k = c
    · simp [appendSym, lookup, hk, getSyms]
    · simp only [hasKey, hk, decide_eq_true_eq, Bool.false_or,
        decide_eq_true_iff] at h
      simp only [appendSym, hk, if_false, lookup, getSyms]
      simpa [lookup, hk, getSyms] using ih (by simpa using h)

theorem lookup_appendSym_ne (s : Symbols) (c d : Cat) (x : SymName) (h : c ≠ d) :
    lookup (appendSym s d x) c = lookup s c := by
  induction s with
  | nil => rfl
  | cons p t ih =>
    obtain ⟨k, v⟩ := p
    by_cases hk : k = d
    · have hkc : ¬ k = c := fun hh => h (by rw [← hh, hk])
      simp [appendSym, lookup, hk, hkc, Ne.symm h]
    · by_cases hc : k = c
      · subst hc
        simp [appendSym, lookup, hk, h]
      · simp [appendSym, lookup, hk, hc, ih]

theorem keysOf_cons (k : Cat) (v : List SymName) (t : Symbols) :
    keysOf ((k, v) :: t) = k :: keysOf t := rfl

theorem keysOf_appendSym (s : Symbols) (c : Cat) (x : SymName) :
    keysOf (appendSym s c x) = keysOf s := by
  induction s with
  | nil => rfl
  | cons p t ih =>
    obtain ⟨k, v⟩ := p
    by_cases hk : k = c
    · simp [appendSym, keysOf_cons, hk]
    · simp [appendSym, keysOf_cons, hk, ih]

theorem hasKey_iff_mem (s : Symbols) (c : Cat) : hasKey s c = true ↔ c ∈ keysOf s := by
  induction s with
  | nil => simp [hasKey, keysOf]
  | cons p t ih =>
    obtain ⟨k, v⟩ := p
    by_cases h : k = c
    · subst h
      simp [hasKey, keysOf_cons]
    · simp [hasKey, keysOf_cons, h, ih, Ne.symm h]

theorem hasKey_ensure_self (s : Symbols) (c : Cat) : hasKey (ensure s c) c = true := by
  unfold ensure
  by_cases h : hasKey s c
  · simp [h]
  · simp only [h, if_false]
    rw [hasKey_iff_mem]
    simp [keysOf]

theorem getSyms_ensure (s : Symbols) (c d : Cat) : getSyms (ensure s c) d = getSyms s d := by
  unfold ensure
  by_cases h : hasKey s c
  · simp [h]
  · simp only [h, if_false]
    by_cases hd : d = c
    · subst hd
      have := lookup_eq_none_of_hasKey_false (by simpa using h)
      simp [getSyms, lookup_append, this, lookup]
    · simp [getSyms, lookup_append, lookup, hd, Ne.symm hd]

theorem keysOf_ensure (s : Symbols) (c : Cat) :
    keysOf (ensure s c) = if hasKey s c then keysOf s else keysOf s ++ [c] := by
  unfold ensure
  by_cases h : hasKey s c <;> simp [h, keysOf]

theorem lookup_eq_some_getSyms {s : Symbols} {c : Cat} (h : hasKey s c = true) :
    lookup s c = some (getSyms s c) := by
  rw [hasKey_eq_isSome] at h
  cases hl : lookup s c with
  | none => rw [hl] at h; simp at h
  | some v => simp [getSyms, hl]

/-! ### Step equations for the scan loop -/

theorem scanLines_nil (s : Symbols) : scanLines s [] = .ok s := rfl

theorem scanLines_cons_none (s : Symbols) (l : List Char) (ls : List (List Char))
    (h : scanLine l = none) : scanLines s (l :: ls) = scanLines s ls := by
  simp [scanLines, h]

theorem scanLines_cons_err (s : Symbols) (l : List Char) (ls : List (List Char))
    (cat rest : List Char) (h : scanLine l = some (cat, rest))
    (he : extractId rest = none) :
    scanLines s (l :: ls) = .error (errText ++ rest, ensure s cat) := by
  simp [scanLines, h, add_match, he]

theorem scanLines_cons_ok (s : Symbols) (l : List Char) (ls : List (List Char))
    (cat rest : List Char) (w : SymName) (h : scanLine l = some (cat, rest))
    (he : extractId rest = some w) :
    scanLines s (l :: ls) = scanLines (appendSym (ensure s cat) cat w) ls := by
  simp [scanLines, h, add_match, he]

theorem getSyms_step (s : Symbols) (cat : Cat) (w : SymName) (c : Cat) :
    getSyms (appendSym (ensure s cat) cat w) c =
      getSyms s c ++ (if cat = c then [w] else []) := by
  by_cases hc : cat = c
  · subst hc
    rw [getSyms, lookup_appendSym_self _ _ _ (hasKey_ensure_self s cat)]
    simp [getSyms_ensure]
  · rw [getSyms, lookup_appendSym_ne _ _ _ _ (fun hh => hc hh.symm)]
    simpa [hc] using getSyms_ensure s cat c

/-! ### Scan-phase lemmas -/

theorem getSyms_scanLines (ls : List (List Char)) :
    ∀ (s s2 : Symbols), scanLines s ls = .ok s2 →
      ∀ c, getSyms s2 c = getSyms s c ++ ls.flatMap (lineDetect c) := by
  induction ls with
  | nil =>
    intro s s2 h c
    rw [scanLines_nil] at h
    cases h
    simp
  | cons l ls ih =>
    intro s s2 h c
    cases hsl : scanLine l with
    | none =>
      rw [scanLines_cons_none s l ls hsl] at h
      rw [ih s s2 h c]
      simp [lineDetect, hsl]
    | some pr =>
      obtain ⟨cat, rest⟩ := pr
      cases hex : extractId rest with
      | none =>
        rw [scanLines_cons_err s l ls cat rest hsl hex] at h
        simp at h
      | some w =>
        rw [scanLines_cons_ok s l ls cat rest w hsl hex] at h
        rw [ih _ s2 h c, getSyms_step]
        simp [lineDetect, hsl, hex, List.append_assoc]

theorem keysOf_scanLines (ls : List (List Char)) :
    ∀ (s s2 : Symbols), scanLines s ls = .ok s2 →
      ∃ new, keysOf s2 = keysOf s ++ new := by
  induction ls with
  | nil =>
    intro s s2 h
    rw [scanLines_nil] at h
    cases h
    exact ⟨[], by simp⟩
  | cons l ls ih =>
    intro s s2 h
    cases hsl : scanLine l with
    | none =>
      rw [scanLines_cons_none s l ls hsl] at h
      exact ih s s2 h
    | some pr =>
      obtain ⟨cat, rest⟩ := pr
      cases hex : extractId rest with
      | none =>
        rw [scanLines_cons_err s l ls cat rest hsl hex] at h
        simp at h
      | some w =>
        rw [scanLines_cons_ok s l ls cat rest w hsl hex] at h
        obtain ⟨new, hnew⟩ := ih _ s2 h
        rw [keysOf_appendSym, keysOf_ensure] at hnew
        by_cases hk : hasKey s cat
        · rw [if_pos hk] at hnew
          exact ⟨new, hnew⟩
        · rw [if_neg hk] at hnew
          refine ⟨cat :: new, ?_⟩
          rw [hnew, List.append_assoc]
          rfl

theorem nodup_keysOf_scanLines (ls : List (List Char)) :
    ∀ (s s2 : Symbols), scanLines s ls = .ok s2 →
      (keysOf s).Nodup → (keysOf s2).Nodup := by
  induction ls with
  | nil =>
    intro s s2 h hn
    rw [scanLines_nil] at h
    cases h
    exact hn
  | cons l ls ih =>
    intro s s2 h hn
    cases hsl : scanLine l with
    | none =>
      rw [scanLines_cons_none s l ls hsl] at h
      exact ih s s2 h hn
    | some pr =>
      obtain ⟨cat, rest⟩ := pr
      cases hex : extractId rest with
      | none =>
        rw [scanLines_cons_err s l ls cat rest hsl hex] at h
        simp at h
      | some w =>
        rw [scanLines_cons_ok s l ls cat rest w hsl hex] at h
        refine ih _ s2 h ?_
        rw [keysOf_appendSym, keysOf_ensure]
        by_cases hk : hasKey s cat
        · rwa [if_pos hk]
        · rw [if_neg hk]
          have hcat : cat ∉ keysOf s := fun hm => hk ((hasKey_iff_mem s cat).mpr hm)
          simp [List.nodup_append, hcat, hn]

theorem hasKey_scanLines_mono (ls : List (List Char)) (s s2 : Symbols)
    (h : scanLines s ls = .ok s2) (c : Cat) (hc : hasKey s c = true) :
    hasKey s2 c = true := by
  obtain ⟨new, hnew⟩ := keysOf_scanLines ls s s2 h
  rw [hasKey_iff_mem] at hc ⊢
  rw [hnew]
  exact List.mem_append_left _ hc

theorem nonempty_scanLines (ls : List (List Char)) :
    ∀ (s s2 : Symbols), scanLines s ls = .ok s2 →
      (∀ c xs, lookup s c = some xs → xs ≠ []) →
      (∀ c xs, lookup s2 c = some xs → xs ≠ []) := by
  induction ls with
  | nil =>
    intro s s2 h hi
    rw [scanLines_nil] at h
    cases h
    exact hi
  | cons l ls ih =>
    intro s s2 h hi
    cases hsl : scanLine l with
    | none =>
      rw [scanLines_cons_none s l ls hsl] at h
      exact ih s s2 h hi
    | some pr =>
      obtain ⟨cat, rest⟩ := pr
      cases hex : extractId rest with
      | none =>
        rw [scanLines_cons_err s l ls cat rest hsl hex] at h
        simp at h
      | some w =>
        rw [scanLines_cons_ok s l ls cat rest w hsl hex] at h
        refine ih _ s2 h ?_
        intro c xs hx
        by_cases hc : c = cat
        · subst hc
          rw [lookup_appendSym_self _ _ _ (hasKey_ensure_self s c)] at hx
          injection hx with hx2
          subst hx2
          simp
        · rw [lookup_appendSym_ne _ _ _ _ hc] at hx
          rw [ensure] at hx
          by_cases hk : hasKey s cat
          · rw [if_pos hk] at hx
            exact hi c xs hx
          · rw [if_neg hk, lookup_append] at hx
            cases hl : lookup s c with
            | some v =>
              rw [hl] at hx
              simp at hx
              exact hx ▸ hi c v hl
            | none =>
              rw [hl] at hx
              simp [lookup, Ne.symm hc] at hx

theorem lookup_scanLines_mono (ls : List (List Char)) (s s2 : Symbols)
    (h : scanLines s ls = .ok s2) (c : Cat) (xs : List SymName)
    (hx : lookup s c = some xs) :
    ∃ ys, lookup s2 c = some (xs ++ ys) := by
  have hk : hasKey s c = true := by rw [hasKey_eq_isSome, hx]; rfl
  have hk2 := hasKey_scanLines_mono ls s s2 h c hk
  have hget := getSyms_scanLines ls s s2 h c
  refine ⟨ls.flatMap (lineDetect c), ?_⟩
  rw [lookup_eq_some_getSyms hk2, hget]
  simp [getSyms, hx]

theorem scanLines_append (xs ys : List (List Char)) :
    ∀ s, scanLines s (xs ++ ys) =
      match scanLines s xs with
      | .error e => .error e
      | .ok s2 => scanLines s2 ys := by
  induction xs with
  | nil => intro s; rfl
  | cons l xs ih =>
    intro s
    cases hsl : scanLine l with
    | none =>
      rw [List.cons_append, scanLines_cons_none s l (xs ++ ys) hsl,
        scanLines_cons_none s l xs hsl]
      exact ih s
    | some pr =>
      obtain ⟨cat, rest⟩ := pr
      cases hex : extractId rest with
      | none =>
        rw [List.cons_append, scanLines_cons_err s l (xs ++ ys) cat rest hsl hex,
          scanLines_cons_err s l xs cat rest hsl hex]
      | some w =>
        rw [List.cons_append, scanLines_cons_ok s l (xs ++ ys) cat rest w hsl hex,
          scanLines_cons_ok s l xs cat rest w hsl hex]
        exact ih _

theorem scanFiles_eq_scanLines (fs : List (List (List Char))) :
    ∀ s, scanFiles s fs = scanLines s (fs.flatMap id) := by
  induction fs with
  | nil => intro s; rfl
  | cons f fs ih =>
    intro s
    cases hsf : scanLines s f with
    | error e =>
      simp [scanFiles, hsf, scanLines_append]
    | ok s2 =>
      simp [scanFiles, hsf, scanLines_append, ih s2]

theorem getSyms_scanFiles (files : List (List (List Char))) (s2 : Symbols)
    (h : scanFiles [] files = .ok s2) (c : Cat) :
    getSyms s2 c = detections files c := by
  rw [scanFiles_eq_scanLines] at h
  have := getSyms_scanLines _ _ _ h c
  simpa [getSyms, lookup, detections] using this

/-! ### Character-class and pattern lemmas -/

theorem space_not_word {c : Char} (h : isSpaceChar c = true) : isWordChar c = false := by
  simp only [isSpaceChar, Bool.or_eq_true, decide_eq_true_eq] at h
  rcases h with (((((rfl | rfl) | rfl) | rfl) | rfl) | rfl) <;> decide

theorem word_not_space {c : Char} (h : isWordChar c = true) : isSpaceChar c = false := by
  cases hs : isSpaceChar c with
  | false => rfl
  | true => exact absurd h (by simp [space_not_word hs])

theorem takeWord_eq (l : List Char) : l = (takeWord l).1 ++ (takeWord l).2 := by
  induction l with
  | nil => rfl
  | cons c t ih =>
    by_cases h : isWordChar c
    · simp only [takeWord, h, if_true, List.cons_append]
      exact congrArg (c :: ·) ih
    · simp [takeWord, h]

theorem takeWord_word (l : List Char) : ∀ c ∈ (takeWord l).1, isWordChar c = true := by
  induction l with
  | nil => intro c hc; simp [takeWord] at hc
  | cons a t ih =>
    intro c hc
    by_cases h : isWordChar a
    · simp only [takeWord, h, if_true, List.cons, List.mem_cons] at hc
      rcases hc with rfl | hc
      · exact h
      · exact ih c hc
    · simp [takeWord, h] at hc

theorem takeWord_append (w r : List Char) (hw : ∀ c ∈ w, isWordChar c = true)
    (hr : ∀ c t, r = c :: t → isWordChar c = false) :
    takeWord (w ++ r) = (w, r) := by
  induction w with
  | nil =>
    cases hr2 : r with
    | nil => rfl
    | cons c t => simp [takeWord, hr c t hr2]
  | cons c w ih =>
    have hc : isWordChar c = true := hw c (List.mem_cons_self _ _)
    have ih2 := ih (fun x hx => hw x (List.mem_cons_of_mem _ hx))
    simp [takeWord, hc, ih2]

theorem dropSpaces_append (sp r : List Char) (hs : ∀ c ∈ sp, isSpaceChar c = true)
    (hr : ∀ c t, r = c :: t → isSpaceChar c = false) :
    dropSpaces (sp ++ r) = r := by
  induction sp with
  | nil =>
    cases hr2 : r with
    | nil => rfl
    | cons c t => simp [dropSpaces, hr c t hr2]
  | cons c sp ih =>
    have hc : isSpaceChar c = true := hs c (List.mem_cons_self _ _)
    have ih2 := ih (fun x hx => hs x (List.mem_cons_of_mem _ hx))
    simp [dropSpaces, hc, ih2]

theorem dropSpaces_decomp (l : List Char) :
    ∃ sp, l = sp ++ dropSpaces l ∧ (∀ c ∈ sp, isSpaceChar c = true) ∧
      (∀ c t, dropSpaces l = c :: t → isSpaceChar c = false) := by
  induction l with
  | nil => exact ⟨[], rfl, by simp, by intro c t h; cases h⟩
  | cons c l ih =>
    by_cases h : isSpaceChar c
    · obtain ⟨sp, he, hsp, hhd⟩ := ih
      refine ⟨c :: sp, ?_, ?_, ?_⟩
      · simp only [dropSpaces, h, if_true, List.cons_append]
        exact congrArg (c :: ·) he
      · intro x hx
        rcases List.mem_cons.mp hx with rfl | hx
        · exact h
        · exact hsp x hx
      · intro x t hx
        simp only [dropSpaces, h, if_true] at hx
        exact hhd x t hx
    · refine ⟨[], by simp [dropSpaces, h], by simp, ?_⟩
      intro x t hx
      simp only [dropSpaces, h, if_false] at hx
      cases hx
      exact Bool.eq_false_iff.mpr h

theorem dropPre_iff (pat : List Char) :
    ∀ (l r : List Char), dropPre l pat = some r ↔ l = pat ++ r := by
  induction pat with
  | nil =>
    intro l r
    simp [dropPre]
  | cons p ps ih =>
    intro l r
    cases l with
    | nil => simp [dropPre]
    | cons a as =>
      by_cases hap : a = p
      · subst hap
        simp only [dropPre, if_pos rfl, List.cons_append, List.cons.injEq,
          true_and]
        exact ih as r
      · simp [dropPre, hap]

/-! ### Order and sorting lemmas -/

theorem char_toNat_inj {a b : Char} (h : a.toNat = b.toNat) : a = b := by
  have h2 := congrArg Char.ofNat h
  rwa [Char.ofNat_toNat, Char.ofNat_toNat] at h2

theorem lexLe_total (a : List Char) : ∀ b, lexLe a b = true ∨ lexLe b a = true := by
  induction a with
  | nil => intro b; exact Or.inl rfl
  | cons x xs ih =>
    intro b
    cases b with
    | nil => exact Or.inr rfl
    | cons y ys =>
      by_cases hxy : x = y
      · subst hxy
        rcases ih ys with h | h
        · exact Or.inl (by simp [lexLe, h])
        · exact Or.inr (by simp [lexLe, h])
      · rcases Nat.lt_or_ge x.toNat y.toNat with h | h
        · exact Or.inl (by simp [lexLe, hxy, h])
        · have h2 : y.toNat < x.toNat :=
            Nat.lt_of_le_of_ne h (fun he => hxy (char_toNat_inj he.symm))
          exact Or.inr (by simp [lexLe, Ne.symm hxy, h2])

theorem lexLe_trans : ∀ {a b c : List Char}, lexLe a b = true → lexLe b c = true →
    lexLe a c = true := by
  intro a
  induction a with
  | nil => intro b c h1 h2; rfl
  | cons x xs ih =>
    intro b c h1 h2
    cases b with
    | nil => simp [lexLe] at h1
    | cons y ys =>
      cases c with
      | nil => simp [lexLe] at h2
      | cons z zs =>
        by_cases hxy : x = y
        · subst hxy
          simp only [lexLe, if_pos rfl] at h1
          by_cases hyz : x = z
          · subst hyz
            simp only [lexLe, if_pos rfl] at h2 ⊢
            exact ih h1 h2
          · simp only [lexLe, if_neg hyz] at h2 ⊢
            exact h2
        · simp only [lexLe, if_neg hxy, decide_eq_true_eq] at h1
          by_cases hyz : y = z
          · subst hyz
            simp [lexLe, hxy, h1]
          · simp only [lexLe, if_neg hyz, decide_eq_true_eq] at h2
            have hxz : x.toNat < z.toNat := Nat.lt_trans h1 h2
            have hne : ¬ x = z := fun he => by
              subst he
              exact Nat.lt_irrefl _ (Nat.lt_trans h1 h2)
            simp [lexLe, hne, hxz]

theorem mem_orderedIns (x a : Cat) : ∀ l, x ∈ orderedIns a l ↔ x = a ∨ x ∈ l := by
  intro l
  induction l with
  | nil => simp [orderedIns]
  | cons b t ih =>
    by_cases h : lexLe a b
    · simp [orderedIns, h]
    · simp [orderedIns, h, ih, or_left_comm]

theorem pairwise_orderedIns (a : Cat) (l : List Cat)
    (h : l.Pairwise (fun x y => lexLe x y = true)) :
    (orderedIns a l).Pairwise (fun x y => lexLe x y = true) := by
  induction l with
  | nil => simp [orderedIns]
  | cons b t ih =>
    rw [List.pairwise_cons] at h
    obtain ⟨hb, ht⟩ := h
    by_cases hab : lexLe a b
    · simp only [orderedIns, hab, if_true]
      refine List.Pairwise.cons ?_ (List.Pairwise.cons hb ht)
      intro x hx
      rcases List.mem_cons.mp hx with rfl | hx
      · exact hab
      · exact lexLe_trans hab (hb x hx)
    · have hba : lexLe b a = true := (lexLe_total a b).resolve_left (by simpa using hab)
      simp only [orderedIns, hab, if_false]
      refine List.Pairwise.cons ?_ (ih ht)
      intro x hx
      rcases (mem_orderedIns x a t).mp hx with rfl | hx
      · exact hba
      · exact hb x hx

theorem perm_orderedIns (a : Cat) : ∀ l, (orderedIns a l).Perm (a :: l) := by
  intro l
  induction l with
  | nil => simp [orderedIns]
  | cons b t ih =>
    by_cases hab : lexLe a b
    · simp [orderedIns, hab]
    · simp only [orderedIns, hab, if_false]
      exact (List.Perm.cons b ih).trans (List.Perm.swap a b t)

theorem perm_sortKeys : ∀ l : List Cat, (sortKeys l).Perm l := by
  intro l
  induction l with
  | nil => simp [sortKeys]
  | cons a t ih =>
    exact (perm_orderedIns a (sortKeys t)).trans (List.Perm.cons a ih)

theorem pairwise_sortKeys (l : List Cat) :
    (sortKeys l).Pairwise (fun x y => lexLe x y = true) := by
  induction l with
  | nil => simp [sortKeys]
  | cons a t ih => exact pairwise_orderedIns a (sortKeys t) ih

theorem pairwise_lt_sortKeys (l : List Cat) (h : l.Nodup) :
    (sortKeys l).Pairwise (fun x y => lexLt x y = true) := by
  have h1 := pairwise_sortKeys l
  have h2 : (sortKeys l).Nodup := ((perm_sortKeys l).nodup_iff).mpr h
  have h3 := List.Pairwise.and h1 h2
  refine h3.imp ?_
  intro x y hxy
  obtain ⟨hle, hne⟩ := hxy
  simp [lexLt, hle, hne]

/-! ### Emission-shape lemmas -/

theorem startsWith_refl : ∀ l : List Char, startsWith l l = true := by
  intro l
  induction l with
  | nil => rfl
  | cons c t ih => simp [startsWith, ih]

theorem containsSub_append_self (pre p : List Char) :
    containsSub (pre ++ p) p = true := by
  induction pre with
  | nil =>
    cases p with
    | nil => rfl
    | cons c t => simp [containsSub, startsWith_refl]
  | cons c pre ih => simp [containsSub, ih]

theorem symbolLine_ne_sentinel (cat : Cat) (sym : SymName) :
    symbolLine cat sym ≠ sentinelLine := by
  intro h
  have h2 : startsWith (symbolLine cat sym) ("\t&".toList) = true := rfl
  rw [h] at h2
  exact absurd h2 (by decide)

theorem getLast_symbolLine (cat : Cat) (sym : SymName) :
    (symbolLine cat sym).getLast? = some '\\' := by
  have h : symbolLine cat sym =
      ("\t&mpix_".toList ++ lowerChars cat ++ "_".toList ++ sym ++ [',', ' ']) ++ ['\\'] := by
    simp [symbolLine, List.append_assoc]
  rw [h, List.getLast?_concat]

theorem getLast_categoryBlock (cat : Cat) (syms : List SymName) :
    (categoryBlock cat syms).getLast? = some sentinelLine := by
  have h : categoryBlock cat syms =
      ([] :: defineLine cat :: syms.map (symbolLine cat)) ++ [sentinelLine] := by
    simp [categoryBlock]
  rw [h, List.getLast?_concat]

theorem count_sentinel (cat : Cat) (syms : List SymName) :
    (syms.map (symbolLine cat) ++ [sentinelLine]).count sentinelLine = 1 := by
  rw [List.count_append]
  have h0 : (syms.map (symbolLine cat)).count sentinelLine = 0 := by
    rw [List.count_eq_zero]
    intro hm
    obtain ⟨x, hx, he⟩ := List.mem_map.mp hm
    exact symbolLine_ne_sentinel cat x he
  rw [h0]
  simp

theorem head_not_word_of_spaces (s2 : List Char) (c : Char) (r : List Char)
    (hs2 : ∀ x ∈ s2, isSpaceChar x = true) (hcw : isWordChar c = false) :
    ∀ y t, (s2 ++ c :: r) = y :: t → isWordChar y = false := by
  cases s2 with
  | nil =>
    intro y t hy
    simp only [List.nil_append] at hy
    injection hy with hy1 hy2
    subst hy1
    exact hcw
  | cons z s2t =>
    intro y t hy
    simp only [List.cons_append] at hy
    injection hy with hy1 hy2
    subst hy1
    exact space_not_word (hs2 _ (List.mem_cons_self _ _))

theorem head_not_space (c : Char) (r : List Char) (hcs : isSpaceChar c = false) :
    ∀ y t, (c :: r) = y :: t → isSpaceChar y = false := by
  intro y t hy
  injection hy with hy1 hy2
  subst hy1
  exact hcs

/-! ## Claims -/

/-- C1 counterexample: the run on the single input line `MPIX_REGISTER_OP x`
aborts, but the diagnostic message contains neither the offending category
`OP` nor the raw line content; it quotes only the remainder after the
marker and category. -/
theorem c1_counterexample :
    (mainRun ("genlist.py".toList) [[("MPIX_REGISTER_OP x".toList)]]).2 =
      some (errText ++ " x".toList, [("OP".toList, [])]) ∧
    containsSub (errText ++ " x".toList) ("OP".toList) = false ∧
    containsSub (errText ++ " x".toList) ("MPIX_REGISTER_OP x".toList) = false := by
  exact ⟨by rfl, by decide, by decide⟩

/-- C1 (amended): a registration line whose remainder does not parse as
`(<id>...` raises fatally, and the diagnostic reports the remainder of the
line after the marker and category tag (the fixed warning text followed by
that remainder verbatim); the category is not part of the diagnostic. -/
theorem c1_abort_diagnostic (symbols : Symbols) (cat : Cat) (rest : List Char)
    (h : extractId rest = none) :
    (add_match symbols cat rest).err = some (errText ++ rest) ∧
    containsSub (errText ++ rest) rest = true :=
  ⟨by simp [add_match, h], containsSub_append_self errText rest⟩

/-- Witness for the amended C1. -/
theorem c1_abort_diagnostic_witness :
    extractId (" x".toList) = none ∧
    ((add_match [] ("OP".toList) (" x".toList)).err = some (errText ++ " x".toList) ∧
     containsSub (errText ++ " x".toList) (" x".toList) = true) :=
  ⟨by decide, c1_abort_diagnostic [] ("OP".toList) (" x".toList) (by decide)⟩

/-- C2: a run that aborts in the scan phase writes nothing to standard
output, not even the header comment: `main` calls `generate_list`, which
performs all printing, only after every input file scanned successfully. -/
theorem c2_no_output_on_error (argv0 : List Char) (files : List (List (List Char)))
    (e : List Char × Symbols) (h : (mainRun argv0 files).2 = some e) :
    (mainRun argv0 files).1 = [] := by
  unfold mainRun at h ⊢
  cases hs : scanFiles [] files with
  | error e2 => rfl
  | ok s =>
    rw [hs] at h
    simp at h

/-- Witness for C2 at a concrete aborting run. -/
theorem c2_no_output_on_error_witness :
    (mainRun ("genlist.py".toList) [[("MPIX_REGISTER_OP x".toList)]]).2 =
      some (errText ++ " x".toList, [("OP".toList, [])]) ∧
    (mainRun ("genlist.py".toList) [[("MPIX_REGISTER_OP x".toList)]]).1 = [] :=
  ⟨by rfl, c2_no_output_on_error ("genlist.py".toList) [[("MPIX_REGISTER_OP x".toList)]]
    (errText ++ " x".toList, [("OP".toList, [])]) (by rfl)⟩

/-- C3 counterexample: on the line `MPIX_REGISTER_OP x` the run aborts inside
`add_match` after the entry for the new category `OP` was already created;
at the abort point the table maps `OP` to the empty sequence, so the entry
was created by an unsuccessful match, contrary to the claim. -/
theorem c3_counterexample :
    scanLines [] [("MPIX_REGISTER_OP x".toList)] =
      .error (errText ++ " x".toList, [("OP".toList, [])]) ∧
    lookup [(("OP".toList : Cat), ([] : List SymName))] ("OP".toList) = some [] :=
  ⟨by rfl, by rfl⟩

/-- C3 (amended): across every error-free portion of a run, every category
present in the symbol table maps to a non-empty sequence, and entries are
append-only: a stored sequence is only ever extended, never removed or
truncated.  (The entry itself is created before identifier extraction, so a
run aborting on a malformed line with a fresh category leaves that category
empty at the abort point; see the counterexample.) -/
theorem c3_table_invariants (s s2 : Symbols) (ls : List (List Char))
    (hrun : scanLines s ls = .ok s2)
    (hinv : ∀ c xs, lookup s c = some xs → xs ≠ []) :
    (∀ c xs, lookup s2 c = some xs → xs ≠ []) ∧
    (∀ c xs, lookup s c = some xs → ∃ ys, lookup s2 c = some (xs ++ ys)) :=
  ⟨nonempty_scanLines ls s s2 hrun hinv,
   fun c xs hx => lookup_scanLines_mono ls s s2 hrun c xs hx⟩

/-- Witness for the amended C3. -/
theorem c3_table_invariants_witness :
    (scanLines [] [("MPIX_REGISTER_OP(add)".toList)] =
      .ok [(("OP".toList : Cat), ["add".toList])]) ∧
    (∀ c xs, lookup ([] : Symbols) c = some xs → xs ≠ []) ∧
    ((∀ c xs, lookup [(("OP".toList : Cat), (["add".toList] : List SymName))] c =
        some xs → xs ≠ []) ∧
     (∀ c xs, lookup ([] : Symbols) c = some xs →
        ∃ ys, lookup [(("OP".toList : Cat), (["add".toList] : List SymName))] c =
          some (xs ++ ys))) := by
  have hinv : ∀ c xs, lookup ([] : Symbols) c = some xs → xs ≠ [] := by
    intro c xs hx
    simp [lookup] at hx
  exact ⟨by rfl, hinv,
    c3_table_invariants [] [(("OP".toList : Cat), ["add".toList])]
      [("MPIX_REGISTER_OP(add)".toList)] (by rfl) hinv⟩

/-- C4 counterexample: a remainder with whitespace before the opening
parenthesis is rejected, not accepted: the aggregator pattern is anchored at
the parenthesis, so extraction fails on `" (add)"` and `add_match` raises. -/
theorem c4_counterexample :
    extractId (" (add)".toList) = none ∧
    (add_match [] ("OP".toList) (" (add)".toList)).err.isSome = true :=
  ⟨by decide, by decide⟩

/-- C9: determinism.  The behaviour of a run is a pure function of the
command-line arguments and the input file contents, so two runs with equal
arguments over equal file contents produce identical standard output (and
identical abort behaviour). -/
theorem c9_determinism (a1 a2 : List Char) (f1 f2 : List (List (List Char)))
    (ha : a1 = a2) (hf : f1 = f2) : mainRun a1 f1 = mainRun a2 f2 := by
  rw [ha, hf]

/-- Witness for C9 at a concrete run. -/
theorem c9_determinism_witness :
    ("genlist.py".toList = "genlist.py".toList) ∧
    ([[("MPIX_REGISTER_OP(add)".toList)]] = [[("MPIX_REGISTER_OP(add)".toList)]]) ∧
    mainRun ("genlist.py".toList) [[("MPIX_REGISTER_OP(add)".toList)]] =
      mainRun ("genlist.py".toList) [[("MPIX_REGISTER_OP(add)".toList)]] :=
  ⟨rfl, rfl, c9_determinism _ _ _ _ rfl rfl⟩

/-- C10: a run in which no input line produces a detection event — including
a run with zero input file paths — leaves the symbol table empty and writes
exactly one line, the header comment identifying the generating tool, with
no category blocks and no abort. -/
theorem c10_no_detection_header_only (argv0 : List Char)
    (files : List (List (List Char)))
    (h : ∀ f ∈ files, ∀ l ∈ f, scanLine l = none) :
    mainRun argv0 files = ([headerLine argv0], none) ∧
    scanFiles [] files = .ok [] := by
  have hall : ∀ ls : List (List Char), (∀ l ∈ ls, scanLine l = none) →
      scanLines [] ls = .ok [] := by
    intro ls
    induction ls with
    | nil => intro h2; rfl
    | cons l ls ih =>
      intro h2
      rw [scanLines_cons_none [] l ls (h2 l (List.mem_cons_self _ _))]
      exact ih (fun x hx => h2 x (List.mem_cons_of_mem _ hx))
  have hs : scanFiles [] files = .ok [] := by
    rw [scanFiles_eq_scanLines]
    refine hall _ ?_
    intro l hl
    obtain ⟨f, hf, hlf⟩ := List.mem_flatMap.mp hl
    exact h f hf l hlf
  refine ⟨?_, hs⟩
  unfold mainRun
  rw [hs]
  simp [generate_list, keysOf, sortKeys]

/-- Witness for C10: the zero-input-file run. -/
theorem c10_no_detection_header_only_witness :
    (∀ f ∈ ([] : List (List (List Char))), ∀ l ∈ f, scanLine l = none) ∧
    (mainRun ("genlist.py".toList) [] = ([headerLine ("genlist.py".toList)], none) ∧
     scanFiles [] ([] : List (List (List Char))) = .ok []) :=
  ⟨by simp, c10_no_detection_header_only ("genlist.py".toList) [] (by simp)⟩

/-- C5: a line produces a detection event if and only if it begins at column
0 with the literal marker `MPIX_REGISTER_` immediately followed by at least
one word character (the first character of the category tag); in particular
a line carrying the marker text only mid-line produces no detection event. -/
theorem c5_detection_iff (l : List Char) :
    (scanLine l).isSome = true ↔
      ∃ ch rest, l = marker ++ ch :: rest ∧ isWordChar ch = true := by
  constructor
  · intro h
    cases hdp : dropPre l marker with
    | none => simp [scanLine, hdp] at h
    | some rest0 =>
      have hl : l = marker ++ rest0 := (dropPre_iff marker l rest0).mp hdp
      rcases htw : takeWord rest0 with ⟨w1, r1⟩
      cases w1 with
      | nil => simp [scanLine, hdp, htw] at h
      | cons x wt =>
        have ht := takeWord_eq rest0
        rw [htw] at ht
        refine ⟨x, wt ++ r1, ?_, ?_⟩
        · rw [hl, ht]
          simp
        · have hword := takeWord_word rest0
          rw [htw] at hword
          exact hword x (List.mem_cons_self _ _)
  · rintro ⟨ch, rest, rfl, hch⟩
    have hdp : dropPre (marker ++ ch :: rest) marker = some (ch :: rest) :=
      (dropPre_iff marker _ _).mpr rfl
    have htw : takeWord (ch :: rest) =
        ((takeWord rest).1.cons ch, (takeWord rest).2) := by
      simp [takeWord, hch]
    simp [scanLine, hdp, htw]

/-- C4 (amended): the aggregator accepts a remainder exactly when it begins
immediately with an opening parenthesis — no whitespace is tolerated before
it — followed by optional whitespace, a non-empty identifier, optional
whitespace, and then a comma or a closing parenthesis; any other remainder
is a malformed-input error. -/
theorem c4_accepted_shape (l : List Char) :
    (extractId l).isSome = true ↔
      ∃ s1 w s2 c r, l = '(' :: (s1 ++ (w ++ (s2 ++ c :: r))) ∧
        (∀ x ∈ s1, isSpaceChar x = true) ∧ w ≠ [] ∧
        (∀ x ∈ w, isWordChar x = true) ∧
        (∀ x ∈ s2, isSpaceChar x = true) ∧ (c = ',' ∨ c = ')') := by
  constructor
  · intro h
    cases l with
    | nil => simp [extractId] at h
    | cons c0 rest =>
      by_cases hc0 : c0 = '('
      · subst hc0
        obtain ⟨sp1, he1, hs1, hh1⟩ := dropSpaces_decomp rest
        rcases htw : takeWord (dropSpaces rest) with ⟨w1, r1⟩
        cases w1 with
        | nil => simp [extractId, htw] at h
        | cons x wt =>
          have hw := takeWord_eq (dropSpaces rest)
          rw [htw] at hw
          have hword := takeWord_word (dropSpaces rest)
          rw [htw] at hword
          obtain ⟨sp2, he2, hs2, hh2⟩ := dropSpaces_decomp r1
          cases hds : dropSpaces r1 with
          | nil => simp [extractId, htw, hds] at h
          | cons c2 r2 =>
            by_cases hc2 : (c2 = ',') ∨ (c2 = ')')
            · refine ⟨sp1, x :: wt, sp2, c2, r2, ?_, hs1, by simp, hword, hs2, hc2⟩
              have heq : rest = sp1 ++ ((x :: wt) ++ (sp2 ++ (c2 :: r2))) := by
                rw [← hds, ← he2, ← hw, ← he1]
              rw [heq]
            · simp [extractId, htw, hds, hc2] at h
      · simp [extractId, hc0] at h
  · rintro ⟨s1, w, s2, c, r, rfl, hs1, hwne, hword, hs2, hc⟩
    obtain ⟨x, wt, rfl⟩ : ∃ x wt, w = x :: wt := by
      cases w with
      | nil => exact absurd rfl hwne
      | cons x wt => exact ⟨x, wt, rfl⟩
    have hx : isWordChar x = true := hword x (List.mem_cons_self _ _)
    have hcword : isWordChar c = false := by
      rcases hc with rfl | rfl <;> decide
    have hcspace : isSpaceChar c = false := by
      rcases hc with rfl | rfl <;> decide
    have hd1 : dropSpaces (s1 ++ ((x :: wt) ++ (s2 ++ c :: r))) =
        (x :: wt) ++ (s2 ++ c :: r) := by
      refine dropSpaces_append s1 _ hs1 ?_
      intro y t hy
      simp only [List.cons_append] at hy
      injection hy with hy1 hy2
      subst hy1
      exact word_not_space hx
    have hd2 : takeWord ((x :: wt) ++ (s2 ++ c :: r)) = (x :: wt, s2 ++ c :: r) :=
      takeWord_append _ _ hword (head_not_word_of_spaces s2 c r hs2 hcword)
    have hd3 : dropSpaces (s2 ++ c :: r) = c :: r :=
      dropSpaces_append s2 _ hs2 (head_not_space c r hcspace)
    simp only [List.cons_append, List.append_assoc] at hd1 hd2 hd3
    simp [extractId, hd1, hd2, hd3, hc]

/-- C6: for every category, the stored (and hence emitted) sequence of
symbols equals exactly the sequence of identifiers extracted for that
category, in encounter order over the concatenation of the input files in
command-line order, duplicates preserved. -/
theorem c6_order_preservation (files : List (List (List Char))) (s : Symbols)
    (h : scanFiles [] files = .ok s) (c : Cat) :
    getSyms s c = detections files c :=
  getSyms_scanFiles files s h c

/-- Witness for C6, with a duplicate registration that is preserved. -/
theorem c6_order_preservation_witness :
    (scanFiles []
        [[("MPIX_REGISTER_OP(add)".toList), ("MPIX_REGISTER_OP(add)".toList)]] =
      .ok [(("OP".toList : Cat), ["add".toList, "add".toList])]) ∧
    getSyms [(("OP".toList : Cat), (["add".toList, "add".toList] : List SymName))]
        ("OP".toList) =
      detections [[("MPIX_REGISTER_OP(add)".toList), ("MPIX_REGISTER_OP(add)".toList)]]
        ("OP".toList) :=
  ⟨by rfl,
   c6_order_preservation
     [[("MPIX_REGISTER_OP(add)".toList), ("MPIX_REGISTER_OP(add)".toList)]]
     [(("OP".toList : Cat), ["add".toList, "add".toList])] (by rfl) ("OP".toList)⟩

/-- C7: in every successful run the emitted category blocks appear in strict
ascending lexicographic order of category name regardless of input order:
the sorted key list that drives the emission loop of `generate_list` is
strictly sorted under the code-point order. -/
theorem c7_sorted_categories (files : List (List (List Char))) (s : Symbols)
    (h : scanFiles [] files = .ok s) :
    (sortKeys (keysOf s)).Pairwise (fun a b => lexLt a b = true) := by
  rw [scanFiles_eq_scanLines] at h
  have hnd : (keysOf s).Nodup :=
    nodup_keysOf_scanLines _ [] s h (by simp [keysOf])
  exact pairwise_lt_sortKeys _ hnd

/-- Witness for C7: categories encountered in the order OP, FMT are emitted
in the order FMT, OP. -/
theorem c7_sorted_categories_witness :
    (scanFiles []
        [[("MPIX_REGISTER_OP(add)".toList), ("MPIX_REGISTER_FMT(rgb565)".toList)]] =
      .ok [(("OP".toList : Cat), ["add".toList]),
           (("FMT".toList : Cat), ["rgb565".toList])]) ∧
    (sortKeys (keysOf [(("OP".toList : Cat), (["add".toList] : List SymName)),
        (("FMT".toList : Cat), (["rgb565".toList] : List SymName))])).Pairwise
      (fun a b => lexLt a b = true) :=
  ⟨by rfl,
   c7_sorted_categories
     [[("MPIX_REGISTER_OP(add)".toList), ("MPIX_REGISTER_FMT(rgb565)".toList)]]
     [(("OP".toList : Cat), ["add".toList]), (("FMT".toList : Cat), ["rgb565".toList])]
     (by rfl)⟩

/-- C8: the block emitted for a category consists of the blank separator
line, the macro definition line, one continuation line per stored symbol —
each of the form tab, `&mpix_`, the lowercased category, `_`, the symbol,
then a comma and the continuation marker, so each such line ends in a
backslash — and exactly one sentinel terminator line `NULL` at the end of
the symbol list, which does not end in a continuation marker, however many
symbols precede it. -/
theorem c8_block_structure (cat : Cat) (syms : List SymName) (sym : SymName) :
    categoryBlock cat syms =
      [] :: defineLine cat :: (syms.map (symbolLine cat) ++ [sentinelLine]) ∧
    (categoryBlock cat syms).getLast? = some sentinelLine ∧
    (syms.map (symbolLine cat) ++ [sentinelLine]).count sentinelLine = 1 ∧
    symbolLine cat sym =
      '\t' :: ("&mpix_".toList ++ lowerChars cat ++ "_".toList ++ sym ++ ", \\".toList) ∧
    (symbolLine cat sym).getLast? = some '\\' ∧
    sentinelLine = "\tNULL".toList ∧
    sentinelLine.getLast? ≠ some '\\' := by
  refine ⟨rfl, getLast_categoryBlock cat syms, count_sentinel cat syms, ?_,
    getLast_symbolLine cat sym, rfl, by decide⟩
  simp [symbolLine, List.append_assoc]
